import Mathlib

/-
Shallow embedding of deeplabcut/refine_training_dataset/stitch.py.

Modelling conventions:
- Python/numpy floats are modelled by the rationals.  The primitive
  numerical routines that escape rational arithmetic (np.sqrt, np.log and
  the statsmodels exponential smoother used inside Tracklet.centroid) are
  collected in an abstract record NumOps; every theorem below is proved
  for an arbitrary NumOps, hence holds for every interpretation of those
  primitives.  np.inf is modelled by the value none of an Option type.
  Rational division by zero yields 0 in Lean; the degenerate float cases
  (0/0 boxes and the like) are outside every claim considered here.
- NaN is not representable in the rational model; the all-NaN row filter
  of TrackletStitcher.__init__ therefore keeps every row and is omitted.
- Frame indices are natural numbers, time gaps are integers.
-/

namespace Stitch

/-- Abstract numerical primitives of the source (np.sqrt, np.log and the
statsmodels SimpleExpSmoothing fitted values used for centroid smoothing). -/
structure NumOps where
  sqrt : ℚ → ℚ
  log : ℚ → ℚ
  ses : List ℚ → List ℚ

/-- A concrete interpretation of the primitives, used to instantiate
universally quantified theorems on concrete inputs. -/
def opsId : NumOps := ⟨fun q => q, fun q => q, fun l => l⟩

/-- One keypoint record: x, y, confidence (source data[..., :3]). -/
abbrev Point := ℚ × ℚ × ℚ

/-- One frame of a tracklet: the per-bodypart records. -/
abbrev Frame := List Point

/-- Mean of a list of rationals (np.mean; empty list gives 0/0 = 0). -/
def meanQ (l : List ℚ) : ℚ := l.sum / l.length

/-- Stable insertion: p is placed in front of the first element that is not
strictly below it, so elements with equal keys keep their relative order. -/
def sInsertBy (lt : α → α → Bool) (p : α) : List α → List α
  | [] => [p]
  | q :: qs => if lt q p then q :: sInsertBy lt p qs else p :: q :: qs

/-- Stable sort.  A stable sort is extensionally unique, so this models
np.argsort(-, kind=mergesort) composed with fancy indexing, and Python
sorted(-, key=-). -/
def sSortBy (lt : α → α → Bool) : List α → List α
  | [] => []
  | p :: ps => sInsertBy lt p (sSortBy lt ps)

/-- Tracklet state: parallel arrays of frame data and frame indices
(source fields self.data, self.inds). -/
structure Tracklet where
  data : List Frame
  inds : List ℕ
deriving DecidableEq

instance : Inhabited Tracklet := ⟨⟨[], []⟩⟩

/-- The monotonically_increasing check of Tracklet.__init__:
all(a < b for a, b in zip(inds, inds[1:])). -/
def strictIncB : List ℕ → Bool
  | [] => true
  | [_] => true
  | a :: b :: rest => decide (a < b) && strictIncB (b :: rest)

/-- Tracklet.__init__: keep the arrays as given when the indices are already
strictly increasing, otherwise apply a stable sort by frame index to both
arrays (np.argsort(inds, kind=mergesort) followed by indexing). -/
def mkTracklet (data : List Frame) (inds : List ℕ) : Tracklet :=
  if strictIncB inds then ⟨data, inds⟩
  else
    let sorted := sSortBy (fun a b => decide (a.1 < b.1)) (inds.zip data)
    ⟨sorted.map (·.2), sorted.map (·.1)⟩

/-- Tracklet.start (self.inds[0]). -/
def Tracklet.startF (t : Tracklet) : ℕ := t.inds.headD 0

/-- Tracklet.end (self.inds[-1]). -/
def Tracklet.endF (t : Tracklet) : ℕ := t.inds.getLastD 0

/-- Tracklet.__contains__: np.isin(self.inds, other.inds).any(), i.e. the
two tracklets share at least one frame index. -/
def overlapsB (t1 t2 : Tracklet) : Bool := t1.inds.any (fun i => t2.inds.contains i)

/-- Tracklet.is_continuous: self.end - self.start + 1 == len(self). -/
def Tracklet.is_continuous (t : Tracklet) : Bool :=
  decide ((t.endF : ℤ) - (t.startF : ℤ) + 1 = (t.inds.length : ℤ))

/-- Tracklet.__add__: concatenate data and inds and rebuild (the constructor
re-sorts when needed). -/
def tmerge (a b : Tracklet) : Tracklet := mkTracklet (a.data ++ b.data) (a.inds ++ b.inds)

/-- Value of the running accumulator of Python sum(): the integer 0 it
starts from, or a Tracklet. -/
inductive Acc where
  | zero : Acc
  | tr : Tracklet → Acc
deriving DecidableEq

/-- One addition step of Python sum() over tracklets: 0 + t falls back to
Tracklet.__radd__, which returns t itself; t + u is Tracklet.__add__. -/
def accAdd : Acc → Tracklet → Acc
  | .zero, t => .tr t
  | .tr u, t => .tr (tmerge u t)

/-- Adding a tracklet to an accumulator value, as in track = sum(nodes);
hyp = track + t1 (an empty sum is the integer 0 and 0 + t1 gives t1 via
Tracklet.__radd__). -/
def accAddT : Acc → Tracklet → Tracklet
  | .zero, t => t
  | .tr u, t => tmerge u t

/-- Python sum(tracklets): left fold of additions starting from 0. -/
def pathSumAcc (l : List Tracklet) : Acc := l.foldl accAdd Acc.zero

/-- The summed tracklet when the path is non-empty (sum of an empty path is
the integer 0, which is not a Tracklet). -/
def pathSumOpt (l : List Tracklet) : Option Tracklet :=
  match pathSumAcc l with
  | .zero => none
  | .tr t => some t

/-- Grouping of (index, frame) pairs into maximal runs of consecutive
indices: a new run starts exactly where np.diff(inds) != 1, the positions
at which TrackletStitcher.split_tracklet splits both arrays. -/
def chunkRuns : List (ℕ × Frame) → List (List (ℕ × Frame))
  | [] => []
  | p :: ps =>
    match chunkRuns ps with
    | [] => [[p]]
    | c :: cs =>
      match c with
      | [] => [p] :: cs
      | q :: _ => if q.1 = p.1 + 1 then (p :: c) :: cs else [p] :: c :: cs

/-- TrackletStitcher.split_tracklet: split inds and data at every position
where the index difference is not 1 and rebuild a tracklet from each piece. -/
def split_tracklet (t : Tracklet) : List Tracklet :=
  (chunkRuns (t.inds.zip t.data)).map (fun c => mkTracklet (c.map (·.2)) (c.map (·.1)))

/-- Tracklet.xy: the (x, y) part of every record. -/
def Tracklet.xy (t : Tracklet) : List (List (ℚ × ℚ)) :=
  t.data.map (fun f => f.map (fun p => (p.1, p.2.1)))

/-- Per-frame centroid: nanmean of the xy records of the frame (no NaN in
the rational model, so this is the plain mean over bodyparts). -/
def rowCentroid (f : Frame) : ℚ × ℚ :=
  (meanQ (f.map (fun p => p.1)), meanQ (f.map (fun p => p.2.1)))

/-- Tracklet.centroid: raw per-frame centroids, exponentially smoothed per
axis (smoothing level 0.5, via the external statsmodels routine abstracted
in NumOps.ses) when the tracklet is longer than 10 frames. -/
def centroidOf (ops : NumOps) (t : Tracklet) : List (ℚ × ℚ) :=
  let raw := t.data.map rowCentroid
  if raw.length ≤ 10 then raw
  else (ops.ses (raw.map (·.1))).zip (ops.ses (raw.map (·.2)))

/-- Tracklet.time_gap_to: 0 when the tracklets share a frame index,
otherwise the gap between the adjoining endpoints (which is non-positive
when neither tracklet strictly precedes the other). -/
def time_gap_to (t1 t2 : Tracklet) : ℤ :=
  if overlapsB t1 t2 then 0
  else if t1.endF < t2.startF then (t2.startF : ℤ) - (t1.endF : ℤ)
  else (t1.startF : ℤ) - (t2.endF : ℤ)

/-- Euclidean distance between two planar points (np.sqrt of the sum of
squared differences), with the square root taken by the abstract primitive. -/
def pdist (ops : NumOps) (a b : ℚ × ℚ) : ℚ :=
  ops.sqrt ((a.1 - b.1) ^ 2 + (a.2 - b.2) ^ 2)

/-- Centroid rows of t1 at the frames shared with t2, in stored order
(self.centroid[np.isin(self.inds, other_tracklet.inds)]). -/
def sharedCentroids (ops : NumOps) (t1 t2 : Tracklet) : List (ℚ × ℚ) :=
  ((t1.inds.zip (centroidOf ops t1)).filter (fun p => t2.inds.contains p.1)).map (·.2)

/-- Tracklet.distance_to: mean per-frame centroid distance over the shared
frames when the tracklets overlap, otherwise the distance between the two
adjoining endpoint centroids. -/
def distance_to (ops : NumOps) (t1 t2 : Tracklet) : ℚ :=
  if overlapsB t1 t2 then
    meanQ (List.zipWith (pdist ops) (sharedCentroids ops t1 t2) (sharedCentroids ops t2 t1))
  else if t1.endF < t2.startF then
    pdist ops ((centroidOf ops t1).getLastD (0, 0)) ((centroidOf ops t2).headD (0, 0))
  else
    pdist ops ((centroidOf ops t1).headD (0, 0)) ((centroidOf ops t2).getLastD (0, 0))

/-- Difference of consecutive rows (np.diff along axis 0). -/
def diffRows (l : List (ℚ × ℚ)) : List (ℚ × ℚ) :=
  List.zipWith (fun a b => (b.1 - a.1, b.2 - a.2)) l l.tail

/-- Finite-difference velocity rows of Tracklet.calc_velocity: differences
of the first three (tail end) or last three (head end) centroids divided by
the corresponding index differences (rational division; a zero index
difference, impossible for strictly increasing indices, yields 0). -/
def velRows (ops : NumOps) (t : Tracklet) (headEnd : Bool) : List (ℚ × ℚ) :=
  let c := centroidOf ops t
  let cs := if headEnd then c.drop (c.length - 3) else c.take 3
  let is := if headEnd then t.inds.drop (t.inds.length - 3) else t.inds.take 3
  let di := List.zipWith (fun a b => ((b : ℚ) - (a : ℚ))) is is.tail
  List.zipWith (fun v d => (v.1 / d, v.2 / d)) (diffRows cs) di

/-- Tracklet.calc_velocity with norm=True: mean speed. -/
def calc_velocity_norm (ops : NumOps) (t : Tracklet) (headEnd : Bool) : ℚ :=
  meanQ ((velRows ops t headEnd).map (fun v => ops.sqrt (v.1 ^ 2 + v.2 ^ 2)))

/-- Tracklet.calc_velocity with norm=False: componentwise mean velocity. -/
def calc_velocity_vec (ops : NumOps) (t : Tracklet) (headEnd : Bool) : ℚ × ℚ :=
  (meanQ ((velRows ops t headEnd).map (·.1)), meanQ ((velRows ops t headEnd).map (·.2)))

/-- Tracklet.motion_affinity_with: average constant-velocity extrapolation
error across the gap; 0 whenever the time gap is not positive. -/
def motion_affinity_with (ops : NumOps) (t1 t2 : Tracklet) : ℚ :=
  let tg := time_gap_to t1 t2
  if 0 < tg then
    let g : ℚ := (tg : ℚ)
    if t1.endF < t2.startF then
      let v1 := calc_velocity_vec ops t1 true
      let v2 := calc_velocity_vec ops t2 false
      let c1 := (centroidOf ops t1).getLastD (0, 0)
      let c2 := (centroidOf ops t2).headD (0, 0)
      let d1 : ℚ × ℚ := (c1.1 + g * v1.1, c1.2 + g * v1.2)
      let d2 : ℚ × ℚ := (c2.1 - g * v2.1, c2.2 - g * v2.2)
      (ops.sqrt ((c2.1 - d1.1) ^ 2 + (c2.2 - d1.2) ^ 2)
        + ops.sqrt ((c1.1 - d2.1) ^ 2 + (c1.2 - d2.2) ^ 2)) / 2
    else
      let v1 := calc_velocity_vec ops t2 true
      let v2 := calc_velocity_vec ops t1 false
      let c1 := (centroidOf ops t2).getLastD (0, 0)
      let c2 := (centroidOf ops t1).headD (0, 0)
      let d1 : ℚ × ℚ := (c1.1 + g * v1.1, c1.2 + g * v1.2)
      let d2 : ℚ × ℚ := (c2.1 - g * v2.1, c2.2 - g * v2.2)
      (ops.sqrt ((c2.1 - d1.1) ^ 2 + (c2.2 - d1.2) ^ 2)
        + ops.sqrt ((c1.1 - d2.1) ^ 2 + (c1.2 - d2.2) ^ 2)) / 2
  else 0

/-- Minimum of a list of rationals, 0 on the empty list. -/
def minD (l : List ℚ) : ℚ :=
  match l with
  | [] => 0
  | x :: xs => xs.foldr min x

/-- Maximum of a list of rationals, 0 on the empty list. -/
def maxD (l : List ℚ) : ℚ :=
  match l with
  | [] => 0
  | x :: xs => xs.foldr max x

/-- Directed Hausdorff distance between two point sets (scipy
directed_hausdorff; empty sets give 0 in the model). -/
def dirHausdorff (ops : NumOps) (u v : List (ℚ × ℚ)) : ℚ :=
  maxD (u.map (fun p => minD (v.map (fun q => pdist ops p q))))

/-- Tracklet.undirected_hausdorff. -/
def undirected_hausdorff (ops : NumOps) (u v : List (ℚ × ℚ)) : ℚ :=
  max (dirHausdorff ops u v) (dirHausdorff ops v u)

/-- Tracklet.shape_dissimilarity_with: none models np.inf, returned exactly
when the tracklets overlap in time; otherwise the undirected Hausdorff
distance between the two adjoining boundary frames. -/
def shape_dissimilarity_with (ops : NumOps) (t1 t2 : Tracklet) : Option ℚ :=
  if overlapsB t1 t2 then none
  else if t1.endF < t2.startF then
    some (undirected_hausdorff ops (t1.xy.getLastD []) (t2.xy.headD []))
  else
    some (undirected_hausdorff ops (t1.xy.headD []) (t2.xy.getLastD []))

/-- Tracklet.calc_bbox: (nanmin x, nanmin y, nanmax x, nanmax y) of the
bodypart coordinates of one frame (defaults 0 on an empty frame). -/
def calc_bbox (f : List (ℚ × ℚ)) : ℚ × ℚ × ℚ × ℚ :=
  match f with
  | [] => (0, 0, 0, 0)
  | p :: ps =>
    ((ps.map (·.1)).foldr min p.1, (ps.map (·.2)).foldr min p.2,
     (ps.map (·.1)).foldr max p.1, (ps.map (·.2)).foldr max p.2)

/-- Tracklet.iou: intersection over union of two axis-aligned boxes
(rational 0/0 gives 0, absorbing the degenerate zero-area case). -/
def iouQ (b1 b2 : ℚ × ℚ × ℚ × ℚ) : ℚ :=
  let x1 := max b1.1 b2.1
  let y1 := max b1.2.1 b2.2.1
  let x2 := min b1.2.2.1 b2.2.2.1
  let y2 := min b1.2.2.2 b2.2.2.2
  let w := max 0 (x2 - x1)
  let h := max 0 (y2 - y1)
  let wh := w * h
  wh / ((b1.2.2.1 - b1.1) * (b1.2.2.2 - b1.2.1)
        + (b2.2.2.1 - b2.1) * (b2.2.2.2 - b2.2.1) - wh)

/-- Tracklet.box_overlap_with: 0 when the tracklets overlap in time,
otherwise the iou of the bounding boxes at the adjoining boundary frames. -/
def box_overlap_with (t1 t2 : Tracklet) : ℚ :=
  if overlapsB t1 t2 then 0
  else if t1.endF < t2.startF then
    iouQ (calc_bbox (t1.xy.getLastD [])) (calc_bbox (t2.xy.headD []))
  else
    iouQ (calc_bbox (t1.xy.headD [])) (calc_bbox (t2.xy.getLastD []))

/-- Tracklet.hankelize / to_hankelet: interleaved x/y Hankel rows of the
centroid sequence; entry (2i, j) is x(i+j) and entry (2i+1, j) is y(i+j),
with ncols = ceil(2n/3) and nrows = n - ncols + 1. -/
def hankelize (c : List (ℚ × ℚ)) : List (List ℚ) :=
  let n := c.length
  let ncols := (2 * n + 2) / 3
  let nrows := n - ncols + 1
  (List.range nrows).flatMap (fun i =>
    [(List.range ncols).map (fun j => (c.getD (i + j) (0, 0)).1),
     (List.range ncols).map (fun j => (c.getD (i + j) (0, 0)).2)])

/-- Frobenius norm of a matrix given as a list of rows. -/
def frobNorm (ops : NumOps) (m : List (List ℚ)) : ℚ :=
  ops.sqrt ((m.map (fun r => (r.map (fun x => x ^ 2)).sum)).sum)

/-- Divide every entry of a matrix by a scalar. -/
def matDiv (m : List (List ℚ)) (q : ℚ) : List (List ℚ) :=
  m.map (fun r => r.map (fun x => x / q))

/-- The leading ms x ms block of m * m^T. -/
def gramBlock (m : List (List ℚ)) (ms : ℕ) : List (List ℚ) :=
  (m.take ms).map (fun r => (m.take ms).map (fun s => (List.zipWith (· * ·) r s).sum))

/-- Elementwise sum of two matrices. -/
def matAdd (a b : List (List ℚ)) : List (List ℚ) :=
  List.zipWith (fun r s => List.zipWith (· + ·) r s) a b

/-- Tracklet.dynamic_dissimilarity_with: 2 minus the norm of the sum of the
truncated Gram matrices of the Frobenius-normalized Hankelets. -/
def dynamic_dissimilarity_with (ops : NumOps) (t1 t2 : Tracklet) : ℚ :=
  let hk1 := matDiv (hankelize (centroidOf ops t1)) (frobNorm ops (hankelize (centroidOf ops t1)))
  let hk2 := matDiv (hankelize (centroidOf ops t2)) (frobNorm ops (hankelize (centroidOf ops t2)))
  let ms := min (min hk1.length ((hk1.headD []).length)) (min hk2.length ((hk2.headD []).length))
  2 - frobNorm ops (matAdd (gramBlock hk1 ms) (gramBlock hk2 ms))

/-- np.finfo(float).eps, the double-precision machine epsilon 2 ^ (-52). -/
def machEps : ℚ := 1 / 4503599627370496

/-- TrackletStitcher.calculate_weight:
-log(box_overlap + eps) + distance + shape_dissimilarity + dynamic_dissimilarity;
none models the infinite value produced for overlapping tracklets. -/
def calculate_weight (ops : NumOps) (t1 t2 : Tracklet) : Option ℚ :=
  (shape_dissimilarity_with ops t1 t2).map (fun s =>
    -(ops.log (box_overlap_with t1 t2 + machEps)) + distance_to ops t1 t2 + s
      + dynamic_dissimilarity_with ops t1 t2)

/-- Python int() applied to a rational: truncation toward zero. -/
def pyTrunc (q : ℚ) : ℤ := if 0 ≤ q then ⌊q⌋ else ⌈q⌉

/-- Nearest positive time gap from one tracklet to a list of others: the
per-tracklet body of TrackletStitcher.compute_max_gap sorts the collected
gaps and takes the first positive one. -/
def nearestPosGap (base : Tracklet) (others : List Tracklet) : Option ℤ :=
  (sSortBy (fun a b => decide (a < b)) (others.map (time_gap_to base))).find?
    (fun v => decide (0 < v))

/-- One iteration of the max_gap accumulation loop of compute_max_gap:
take the nearest positive gap of tracklet i (to later-listed tracklets) and
keep it when it beats the accumulator. -/
def gapStep (ts : List Tracklet) (acc : ℤ) (i : ℕ) : ℤ :=
  match nearestPosGap (ts.getD i default) (ts.drop (i + 1)) with
  | some v => if acc < v then v else acc
  | none => acc

/-- TrackletStitcher.compute_max_gap: gaps are collected over
itertools.combinations, so tracklet i only records gaps to tracklets later
in the list; the result is the largest of the per-tracklet nearest positive
gaps (0 when there is none). -/
def compute_max_gap (ts : List Tracklet) : ℤ :=
  (List.range ts.length).foldl (gapStep ts) 0

/-- The maximum gap used by TrackletStitcher.build_graph: the argument when
it is given and truthy (None and 0 are falsy), otherwise
int(1.5 * compute_max_gap()). -/
def maxGapUsed (arg : Option ℤ) (ts : List Tracklet) : ℤ :=
  match arg with
  | none => pyTrunc ((3 / 2 : ℚ) * (compute_max_gap ts : ℚ))
  | some g => if g = 0 then pyTrunc ((3 / 2 : ℚ) * (compute_max_gap ts : ℚ)) else g

/-- Index pairs (i, j) with i < j < n in itertools.combinations order. -/
def pairsIdx (n : ℕ) : List (ℕ × ℕ) :=
  (List.range n).flatMap (fun i => ((List.range n).filter (fun j => decide (i < j))).map
    (fun j => (i, j)))

/-- The loop body of the edge-creation loop of build_graph applied to one
combinations pair: when the time gap lies in (0, max_gap], yield the edge
from the out node of the temporally earlier tracklet to the in node of the
later one, carrying int(100 * calculate_weight). -/
def edgeFor (ops : NumOps) (ts : List Tracklet) (mg : ℤ) (p : ℕ × ℕ) :
    Option (ℕ × ℕ × Option ℤ) :=
  let t1 := ts.getD p.1 default
  let t2 := ts.getD p.2 default
  let g := time_gap_to t1 t2
  if 0 < g ∧ g ≤ mg then
    let w := (calculate_weight ops t1 t2).map (fun q => pyTrunc (100 * q))
    if t1.endF < t2.startF then some (p.1, p.2, w) else some (p.2, p.1, w)
  else none

/-- The transition edges added by TrackletStitcher.build_graph over all
itertools.combinations pairs (none in edgeFor models the OverflowError
that int() would raise on an infinite weight). -/
def transitionEdges (ops : NumOps) (ts : List Tracklet) (mg : ℤ) :
    List (ℕ × ℕ × Option ℤ) :=
  (pairsIdx ts.length).filterMap (edgeFor ops ts mg)

/-- The distinct error values raised by the source (the Python classes are
ValueError, IOError, NotImplementedError, TypeError and KeyError; distinct
raise sites get distinct constructors). -/
inductive PyError where
  | valueErrorTracks
  | valueErrorMinLen
  | valueErrorUnpack
  | ioErrorEmpty
  | notImplementedErr
  | typeErrorNoneIterable
  | keyError
deriving DecidableEq

/-- The stitcher state built by TrackletStitcher.__init__. -/
structure Stitcher where
  n_tracks : ℕ
  tracklets : List Tracklet
  residuals : List Tracklet
  n_frames : ℕ
deriving DecidableEq

/-- The per-fragment loop of TrackletStitcher.__init__ over the loaded
(frame index, frame) sequences: an empty fragment makes the tuple
unpacking of zip(*...) raise a ValueError; otherwise a tracklet is built,
split at continuity breaks when requested, and each piece is routed to the
tracklet list or the residual list by the minimal length. -/
def loadFragments (min_length : ℕ) (split : Bool) :
    List (List (ℕ × Frame)) → Except PyError (List Tracklet × List Tracklet × List ℕ)
  | [] => .ok ([], [], [])
  | frag :: rest =>
    match frag with
    | [] => .error .valueErrorUnpack
    | _ =>
      let inds := frag.map (·.1)
      let t := mkTracklet (frag.map (·.2)) inds
      let parts := if ¬t.is_continuous ∧ split then split_tracklet t else [t]
      match loadFragments min_length split rest with
      | .error e => .error e
      | .ok (ts, rs, lf) =>
        .ok ((parts.filter (fun p => min_length ≤ p.inds.length)) ++ ts,
             (parts.filter (fun p => p.inds.length < min_length)) ++ rs,
             inds.getLastD 0 :: lf)

/-- TrackletStitcher.__init__: n_tracks and min_length are validated first,
an empty loaded fragment collection raises IOError, then the fragments are
ingested. -/
def initStitcher (frags : List (List (ℕ × Frame))) (n_tracks min_length : ℕ)
    (split : Bool) : Except PyError Stitcher :=
  if n_tracks < 2 then .error .valueErrorTracks
  else if min_length < 3 then .error .valueErrorMinLen
  else if frags.isEmpty then .error .ioErrorEmpty
  else
    match loadFragments min_length split frags with
    | .error e => .error e
    | .ok (ts, rs, lf) => .ok ⟨n_tracks, ts, rs, lf.foldl max 0 + 1⟩

/-- Position/value minimum search of np.argmin: the first position holding
the minimum wins. -/
def argminGo : List ℚ → ℕ → ℕ × ℚ → ℕ × ℚ
  | [], _, acc => acc
  | x :: xs, i, acc => if x < acc.2 then argminGo xs (i + 1) (i, x) else argminGo xs (i + 1) acc

/-- np.argmin over a list of rationals (0 on the empty list). -/
def argminQ : List ℚ → ℕ
  | [] => 0
  | x :: xs => (argminGo xs 1 (0, x)).1

/-- Positions of the tracks a residual does not temporally overlap
(np.flatnonzero of the easy_fit mask of TrackletStitcher._finalize_tracks). -/
def eligibleIdx (tracks : List Tracklet) (r : Tracklet) : List ℕ :=
  (List.range tracks.length).filter (fun i => !overlapsB (tracks.getD i default) r)

/-- One residual-incorporation step of TrackletStitcher._finalize_tracks:
a unique non-overlapping track absorbs the residual; among several the one
at minimal distance_to does; with none the residual is dropped. -/
def attachStep (ops : NumOps) (tracks : List Tracklet) (r : Tracklet) : List Tracklet :=
  match eligibleIdx tracks r with
  | [] => tracks
  | [i] => tracks.set i (tmerge (tracks.getD i default) r)
  | i :: j :: rest =>
    let inds := i :: j :: rest
    let dists := inds.map (fun k => distance_to ops r (tracks.getD k default))
    let k := inds.getD (argminQ dists) 0
    tracks.set k (tmerge (tracks.getD k default) r)

/-- The residual loop of TrackletStitcher._finalize_tracks: residuals.pop()
repeatedly takes the LAST element of the sorted residual list. -/
def finalizeLoop (ops : NumOps) (tracks : List Tracklet) (res : List Tracklet) :
    List Tracklet :=
  if h : res = [] then tracks
  else finalizeLoop ops (attachStep ops tracks (res.getLastD default)) res.dropLast
termination_by res.length
decreasing_by
  simp only [List.length_dropLast]
  exact Nat.sub_lt (List.length_pos.mpr h) Nat.one_pos

/-- TrackletStitcher._finalize_tracks: the residuals are sorted stably by
ascending length and then consumed from the end of that ordering. -/
def finalize_tracks (ops : NumOps) (tracks : List Tracklet) (residuals : List Tracklet) :
    List Tracklet :=
  finalizeLoop ops tracks
    (sSortBy (fun a b => decide (a.inds.length < b.inds.length)) residuals)

/-- itertools.combinations(l, 2) in order. -/
def allPairs : List α → List (α × α)
  | [] => []
  | x :: xs => (xs.map (fun y => (x, y))) ++ allPairs xs

/-- Coefficient of variation of the centroid displacement of a candidate
track (std of the flattened frame-to-frame differences over the mean of
their absolute values), as computed in the fallback branch of stitch(). -/
def cvOf (ops : NumOps) (t : Tracklet) : ℚ :=
  let flat := (diffRows (centroidOf ops t)).flatMap (fun p => [p.1, p.2])
  let mu := meanQ flat
  ops.sqrt (meanQ (flat.map (fun x => (x - mu) ^ 2))) / meanQ (flat.map (fun x => |x|))

/-- The overlap-disambiguation loop of the incomplete_tracks == 1 branch of
stitch(): the pair list was materialized from the node set up front, so
removing conflicting tracklets does not refresh later pairs, and a removal
of an already-removed tracklet raises KeyError.  Set iteration order is
modelled by list order. -/
def resolveGo (ops : NumOps) :
    List (Tracklet × Tracklet) → List Tracklet → List Tracklet →
    Except PyError (List Tracklet × List Tracklet)
  | [], cur, res => .ok (cur, res)
  | (t1, t2) :: rest, cur, res =>
    if overlapsB t1 t2 then
      if t1 ∈ cur then
        let cur1 := cur.erase t1
        if t2 ∈ cur1 then
          let cur2 := cur1.erase t2
          let track := pathSumAcc cur2
          if cvOf ops (accAddT track t1) < cvOf ops (accAddT track t2) then
            resolveGo ops rest (cur2 ++ [t1]) (res ++ [t2])
          else
            resolveGo ops rest (cur2 ++ [t2]) (res ++ [t1])
        else .error .keyError
      else .error .keyError
    else resolveGo ops rest cur res

/-- Outcome of the external flow-solving capability consumed by stitch():
either the primal min-cost flow is feasible and yields reconstructed paths,
or the pruned node-disjoint-path search of the fallback yields the found
paths together with the tracklets of the nodes still left in the graph. -/
inductive SolveOutcome where
  | feasible (paths : List (List Tracklet))
  | infeasible (found : List (List Tracklet)) (remaining : List Tracklet)

/-- The body of TrackletStitcher.stitch() up to (and excluding) the finally
block: the value of self.paths on success, or the exception in flight. -/
def stitchInner (ops : NumOps) (n_tracks : ℕ) (residuals : List Tracklet) :
    SolveOutcome → Except PyError (List (List Tracklet) × List Tracklet)
  | .feasible ps => .ok (ps, residuals)
  | .infeasible found remaining =>
    let incomplete := n_tracks - found.length
    if incomplete = 1 then
      match resolveGo ops (allPairs remaining) remaining residuals with
      | .ok (nodes, res) => .ok (found ++ [nodes], res)
      | .error e => .error e
    else if 1 < incomplete then .error .notImplementedErr
    else .ok (found, residuals)

/-- TrackletStitcher.stitch() including its finally block, which calls
_finalize_tracks unconditionally.  When the body left an exception in
flight, self.paths is still None, so iterating it in _finalize_tracks
raises a TypeError that replaces the in-flight exception; an empty path in
self.paths sums to the integer 0 and the later membership test on it also
raises a TypeError. -/
def stitchModel (ops : NumOps) (n_tracks : ℕ) (residuals : List Tracklet)
    (oc : SolveOutcome) : Except PyError (List Tracklet) :=
  match stitchInner ops n_tracks residuals oc with
  | .ok (paths, res) =>
    match paths.mapM pathSumOpt with
    | some tracks => .ok (finalize_tracks ops tracks res)
    | none => .error .typeErrorNoneIterable
  | .error _ => .error .typeErrorNoneIterable

/- Lemmas about the stable sort. -/

theorem sInsertBy_perm {α : Type} (lt : α → α → Bool) (p : α) (l : List α) :
    (sInsertBy lt p l).Perm (p :: l) := by
  induction l with
  | nil => simp [sInsertBy]
  | cons q qs ih =>
    simp only [sInsertBy]
    by_cases h : lt q p
    · simpa [h] using (ih.cons q).trans (List.Perm.swap p q qs)
    · simp [h]

theorem sSortBy_perm {α : Type} (lt : α → α → Bool) (l : List α) :
    (sSortBy lt l).Perm l := by
  induction l with
  | nil => simp [sSortBy]
  | cons p ps ih =>
    exact (sInsertBy_perm lt p (sSortBy lt ps)).trans (ih.cons p)

theorem sInsertBy_sorted {α β : Type} [LinearOrder β] (k : α → β) (p : α) (l : List α)
    (hl : l.Sorted (fun a b => k a ≤ k b)) :
    (sInsertBy (fun a b => decide (k a < k b)) p l).Sorted (fun a b => k a ≤ k b) := by
  induction l with
  | nil => simp [sInsertBy]
  | cons q qs ih =>
    rw [List.sorted_cons] at hl
    simp only [sInsertBy]
    by_cases h : k q < k p
    · rw [if_pos (by simpa using h)]
      rw [List.sorted_cons]
      refine ⟨fun b hb => ?_, ih hl.2⟩
      rcases List.mem_cons.mp ((sInsertBy_perm _ p qs).mem_iff.mp hb) with hb2 | hb2
      · subst hb2; exact le_of_lt h
      · exact hl.1 b hb2
    · rw [if_neg (by simpa using h)]
      rw [List.sorted_cons]
      refine ⟨fun b hb => ?_, List.sorted_cons.mpr hl⟩
      rcases List.mem_cons.mp hb with hb2 | hb2
      · subst hb2; exact le_of_not_lt h
      · exact le_trans (le_of_not_lt h) (hl.1 b hb2)

theorem sSortBy_sorted {α β : Type} [LinearOrder β] (k : α → β) (l : List α) :
    (sSortBy (fun a b => decide (k a < k b)) l).Sorted (fun a b => k a ≤ k b) := by
  induction l with
  | nil => simp [sSortBy]
  | cons p ps ih => exact sInsertBy_sorted k p _ ih

theorem sInsertBy_filter_key {α β : Type} [LinearOrder β] (k : α → β) (p : α) (l : List α)
    (c : β) :
    (sInsertBy (fun a b => decide (k a < k b)) p l).filter (fun x => decide (k x = c))
      = if k p = c then p :: l.filter (fun x => decide (k x = c))
        else l.filter (fun x => decide (k x = c)) := by
  induction l with
  | nil => by_cases h : k p = c <;> simp [sInsertBy, h]
  | cons q qs ih =>
    simp only [sInsertBy]
    by_cases h : k q < k p
    · rw [if_pos (by simpa using h)]
      by_cases hp : k p = c
      · have hq : ¬ (k q = c) := fun hqc => absurd h (by rw [hqc, hp]; exact lt_irrefl c)
        simp [List.filter_cons, hp, hq, ih]
      · simp [List.filter_cons, hp, ih]
    · rw [if_neg (by simpa using h)]
      by_cases hp : k p = c <;> simp [List.filter_cons, hp]

theorem sSortBy_filter_key {α β : Type} [LinearOrder β] (k : α → β) (l : List α) (c : β) :
    (sSortBy (fun a b => decide (k a < k b)) l).filter (fun x => decide (k x = c))
      = l.filter (fun x => decide (k x = c)) := by
  induction l with
  | nil => simp [sSortBy]
  | cons p ps ih =>
    simp only [sSortBy, sInsertBy_filter_key k p _ c]
    by_cases hp : k p = c <;> simp [List.filter_cons, hp, ih]

/- Lemmas about the tracklet constructor. -/

theorem strictIncB_iff (l : List ℕ) : strictIncB l = true ↔ List.Chain' (· < ·) l := by
  induction l with
  | nil => simp [strictIncB]
  | cons a t ih =>
    cases t with
    | nil => simp [strictIncB]
    | cons b r =>
      rw [List.chain'_cons, ← ih]
      simp [strictIncB]

theorem zip_map_fst_snd {α β : Type} (l : List (α × β)) :
    (l.map Prod.fst).zip (l.map Prod.snd) = l := by
  induction l with
  | nil => rfl
  | cons p ps ih => simp [ih]

/-- C1: corrected.  The constructor does NOT make the stored indices
strictly increasing and unique (duplicates survive, see c1_counterexample);
what it establishes is that the stored indices are sorted non-decreasingly
and that the (index, frame) pairs with any given frame index keep their
original relative order, the stable-sort property of the single sort
applied at creation. -/
theorem c1_stable_sort (data : List Frame) (inds : List ℕ) :
    ((mkTracklet data inds).inds.Sorted (· ≤ ·))
    ∧ (∀ c : ℕ, ((mkTracklet data inds).inds.zip (mkTracklet data inds).data).filter
        (fun p => decide (p.1 = c)) = (inds.zip data).filter (fun p => decide (p.1 = c))) := by
  by_cases h : strictIncB inds = true
  · refine ⟨?_, fun c => ?_⟩
    · have hp := List.chain'_iff_pairwise.mp ((strictIncB_iff inds).mp h)
      simpa [mkTracklet, h] using hp.imp le_of_lt
    · simp [mkTracklet, h]
  · have hinds : (mkTracklet data inds).inds
        = (sSortBy (fun a b => decide (a.1 < b.1)) (inds.zip data)).map Prod.fst := by
      simp [mkTracklet, h]
    have hdata : (mkTracklet data inds).data
        = (sSortBy (fun a b => decide (a.1 < b.1)) (inds.zip data)).map Prod.snd := by
      simp [mkTracklet, h]
    refine ⟨?_, fun c => ?_⟩
    · rw [hinds]
      exact (List.pairwise_map).mpr (sSortBy_sorted (k := Prod.fst) (inds.zip data))
    · rw [hinds, hdata, zip_map_fst_snd]
      exact sSortBy_filter_key (k := Prod.fst) (inds.zip data) c

/-- Two distinguishable concrete frames used in concrete instances. -/
def frA : Frame := [((0 : ℚ), (0 : ℚ), (1 : ℚ))]

def frB : Frame := [((1 : ℚ), (1 : ℚ), (1 : ℚ))]

/-- C1: counterexample.  Feeding the constructor the duplicate frame index
3 twice leaves both copies in the stored arrays: the stored indices are
neither strictly increasing nor unique (and the duplicate records keep
their input order). -/
theorem c1_counterexample :
    (mkTracklet [frA, frB] [3, 3]).inds = [3, 3]
    ∧ ¬ List.Chain' (· < ·) (mkTracklet [frA, frB] [3, 3]).inds
    ∧ ¬ (mkTracklet [frA, frB] [3, 3]).inds.Nodup
    ∧ (mkTracklet [frA, frB] [3, 3]).data = [frA, frB] := by
  have hind : (mkTracklet [frA, frB] [3, 3]).inds = [3, 3] := by decide
  have hdat : (mkTracklet [frA, frB] [3, 3]).data = [frA, frB] := by decide
  refine ⟨hind, ?_, ?_, hdat⟩
  · rw [hind]; simp
  · rw [hind]; simp

/- Lemmas about the splitting of a tracklet into continuous runs. -/

theorem chunkRuns_cons_eq (p : ℕ × Frame) (ps : List (ℕ × Frame)) :
    chunkRuns (p :: ps) =
      match chunkRuns ps with
      | [] => [[p]]
      | c :: cs =>
        match c with
        | [] => [p] :: cs
        | q :: _ => if q.1 = p.1 + 1 then (p :: c) :: cs else [p] :: c :: cs := rfl

theorem chunkRuns_flat (l : List (ℕ × Frame)) :
    (chunkRuns l).flatMap (fun c => c) = l := by
  induction l with
  | nil => rfl
  | cons p ps ih =>
    rcases hcc : chunkRuns ps with - | ⟨c, cs⟩
    · have heq : chunkRuns (p :: ps) = [[p]] := by rw [chunkRuns_cons_eq, hcc]
      rw [hcc] at ih
      simp only [List.flatMap_nil] at ih
      rw [heq]
      simp [← ih]
    · cases c with
      | nil =>
        have heq : chunkRuns (p :: ps) = [p] :: cs := by rw [chunkRuns_cons_eq, hcc]
        rw [hcc] at ih
        simp only [List.flatMap_cons, List.nil_append] at ih
        simp [heq, ih]
      | cons q c' =>
        by_cases hq : q.1 = p.1 + 1
        · have heq : chunkRuns (p :: ps) = (p :: q :: c') :: cs := by
            rw [chunkRuns_cons_eq, hcc]
            simp [hq]
          rw [hcc] at ih
          simp only [List.flatMap_cons] at ih
          simp [heq, ih]
        · have heq : chunkRuns (p :: ps) = [p] :: (q :: c') :: cs := by
            rw [chunkRuns_cons_eq, hcc]
            simp [hq]
          rw [hcc] at ih
          simp only [List.flatMap_cons] at ih
          simp [heq, ih]

theorem chunkRuns_chain (l : List (ℕ × Frame)) :
    ∀ c ∈ chunkRuns l, List.Chain' (fun a b : ℕ × Frame => b.1 = a.1 + 1) c := by
  induction l with
  | nil => intro c hc; simp [chunkRuns] at hc
  | cons p ps ih =>
    intro c hc
    rcases hcc : chunkRuns ps with - | ⟨c0, cs⟩
    · have heq : chunkRuns (p :: ps) = [[p]] := by rw [chunkRuns_cons_eq, hcc]
      rw [heq] at hc
      simp at hc
      simp [hc]
    · cases c0 with
      | nil =>
        have heq : chunkRuns (p :: ps) = [p] :: cs := by rw [chunkRuns_cons_eq, hcc]
        rw [heq] at hc
        rcases List.mem_cons.mp hc with h1 | h1
        · simp [h1]
        · exact ih c (by rw [hcc]; exact List.mem_cons_of_mem _ h1)
      | cons q c' =>
        by_cases hq : q.1 = p.1 + 1
        · have heq : chunkRuns (p :: ps) = (p :: q :: c') :: cs := by
            rw [chunkRuns_cons_eq, hcc]
            simp [hq]
          rw [heq] at hc
          rcases List.mem_cons.mp hc with h1 | h1
          · subst h1
            have hqc : List.Chain' (fun a b : ℕ × Frame => b.1 = a.1 + 1) (q :: c') :=
              ih (q :: c') (by rw [hcc]; exact List.mem_cons_self _ _)
            exact List.Chain'.cons hq hqc
          · exact ih c (by rw [hcc]; exact List.mem_cons_of_mem _ h1)
        · have heq : chunkRuns (p :: ps) = [p] :: (q :: c') :: cs := by
            rw [chunkRuns_cons_eq, hcc]
            simp [hq]
          rw [heq] at hc
          rcases List.mem_cons.mp hc with h1 | h1
          · simp [h1]
          · exact ih c (by rw [hcc]; exact h1)

theorem chunk_piece_fields (c : List (ℕ × Frame))
    (hc : List.Chain' (fun a b : ℕ × Frame => b.1 = a.1 + 1) c) :
    (mkTracklet (c.map (·.2)) (c.map (·.1))).inds = c.map (·.1)
    ∧ (mkTracklet (c.map (·.2)) (c.map (·.1))).data = c.map (·.2) := by
  have hchain : List.Chain' (· < ·) (c.map (·.1)) := by
    rw [List.chain'_map]
    exact hc.imp (fun {a b} h => by omega)
  have hb : strictIncB (c.map (·.1)) = true := (strictIncB_iff _).mpr hchain
  constructor <;> simp [mkTracklet, hb]

theorem flatMapOfMap {α β γ : Type} (f : α → β) (g : β → List γ) (l : List α) :
    (l.map f).flatMap g = l.flatMap (fun a => g (f a)) := by
  induction l with
  | nil => rfl
  | cons x xs ih => simp_all

theorem mapOfFlatMap {α β γ : Type} (f : α → List β) (g : β → γ) (l : List α) :
    (l.flatMap f).map g = l.flatMap (fun a => (f a).map g) := by
  induction l with
  | nil => rfl
  | cons x xs ih => simp_all

/-- C6: confirmed.  is_continuous holds exactly when end - start + 1 equals
the length, and splitting reassembles the original index and data arrays
exactly: the concatenation (in split order) of the pieces loses, duplicates
and reorders nothing. -/
theorem c6_continuity_split (t : Tracklet) (hw : t.data.length = t.inds.length) :
    (t.is_continuous = true ↔ (t.endF : ℤ) - (t.startF : ℤ) + 1 = (t.inds.length : ℤ))
    ∧ (split_tracklet t).flatMap Tracklet.inds = t.inds
    ∧ (split_tracklet t).flatMap Tracklet.data = t.data := by
  refine ⟨by simp [Tracklet.is_continuous], ?_, ?_⟩
  · have h1 : (split_tracklet t).flatMap Tracklet.inds
        = (chunkRuns (t.inds.zip t.data)).flatMap (fun c => c.map (·.1)) := by
      rw [split_tracklet, flatMapOfMap]
      exact List.flatMap_congr (fun c hc =>
        (chunk_piece_fields c (chunkRuns_chain _ c hc)).1)
    have h2 : ((chunkRuns (t.inds.zip t.data)).flatMap (fun c => c)).map (·.1)
        = (chunkRuns (t.inds.zip t.data)).flatMap (fun c => c.map (·.1)) := by
      rw [mapOfFlatMap]
    rw [h1, ← h2, chunkRuns_flat]
    simpa using List.map_fst_zip t.inds t.data (by omega)
  · have h1 : (split_tracklet t).flatMap Tracklet.data
        = (chunkRuns (t.inds.zip t.data)).flatMap (fun c => c.map (·.2)) := by
      rw [split_tracklet, flatMapOfMap]
      exact List.flatMap_congr (fun c hc =>
        (chunk_piece_fields c (chunkRuns_chain _ c hc)).2)
    have h2 : ((chunkRuns (t.inds.zip t.data)).flatMap (fun c => c)).map (·.2)
        = (chunkRuns (t.inds.zip t.data)).flatMap (fun c => c.map (·.2)) := by
      rw [mapOfFlatMap]
    rw [h1, ← h2, chunkRuns_flat]
    simpa using List.map_snd_zip t.inds t.data (by omega)

/-- A concrete non-continuous tracklet. -/
def tSplit : Tracklet := mkTracklet [frA, frB, frA, frB] [0, 1, 5, 6]

/-- C6: witness at a concrete non-continuous tracklet. -/
theorem c6_continuity_split_witness :
    tSplit.data.length = tSplit.inds.length
    ∧ (split_tracklet tSplit).flatMap Tracklet.inds = tSplit.inds := by
  exact ⟨by decide, (c6_continuity_split tSplit (by decide)).2.1⟩

/- C9: the zero accumulator and summation of tracklets. -/

theorem foldl_accAdd (a : Tracklet) (ts : List Tracklet) :
    ts.foldl accAdd (Acc.tr a) = Acc.tr (ts.foldl tmerge a) := by
  induction ts generalizing a with
  | nil => rfl
  | cons u us ih => simp [List.foldl_cons, accAdd, ih]

/-- C9: confirmed.  The integer 0 is a left identity for tracklet addition
(Tracklet.__radd__ returns the tracklet itself unchanged), so summing a
non-empty tracklet list from the zero accumulator is well defined and is
the left-to-right fold of pairwise merges; the sum is not a tracklet only
for the empty list. -/
theorem c9_zero_left_identity :
    (∀ t : Tracklet, accAdd Acc.zero t = Acc.tr t)
    ∧ (∀ (h : Tracklet) (ts : List Tracklet),
        pathSumAcc (h :: ts) = Acc.tr (ts.foldl tmerge h))
    ∧ (∀ l : List Tracklet, pathSumOpt l = none ↔ l = []) := by
  refine ⟨fun t => rfl, fun h ts => ?_, fun l => ?_⟩
  · simp [pathSumAcc, List.foldl_cons, accAdd, foldl_accAdd]
  · cases l with
    | nil => simp [pathSumOpt, pathSumAcc]
    | cons h ts =>
      simp [pathSumOpt, pathSumAcc, List.foldl_cons, accAdd, foldl_accAdd]

/- C5: symmetry of the affinity functions on overlapping tracklets. -/

theorem overlapsB_iff (t1 t2 : Tracklet) :
    overlapsB t1 t2 = true ↔ ∃ i, i ∈ t1.inds ∧ i ∈ t2.inds := by
  simp [overlapsB, List.any_eq_true]

theorem overlapsB_comm (t1 t2 : Tracklet) : overlapsB t1 t2 = overlapsB t2 t1 := by
  have hiff : overlapsB t1 t2 = true ↔ overlapsB t2 t1 = true := by
    rw [overlapsB_iff, overlapsB_iff]
    constructor
    · rintro ⟨i, ha, hb⟩; exact ⟨i, hb, ha⟩
    · rintro ⟨i, ha, hb⟩; exact ⟨i, hb, ha⟩
  cases ha : overlapsB t1 t2 with
  | false =>
    cases hb : overlapsB t2 t1 with
    | false => rfl
    | true => exact absurd (hiff.mpr hb) (by simp [ha])
  | true => exact (hiff.mp ha).symm

theorem pdist_symm (ops : NumOps) (a b : ℚ × ℚ) : pdist ops a b = pdist ops b a := by
  unfold pdist
  congr 1
  ring

theorem zipWith_symm_fn {α β : Type} (f : α → α → β) (hf : ∀ a b, f a b = f b a) :
    ∀ l1 l2 : List α, List.zipWith f l1 l2 = List.zipWith f l2 l1 := by
  intro l1
  induction l1 with
  | nil => intro l2; cases l2 <;> simp
  | cons a as ih =>
    intro l2
    cases l2 with
    | nil => simp
    | cons b bs => simp [hf a b, ih bs]

/-- Well-formed tracklet in the sense of the data model: strictly
increasing indices and as many data rows as indices (what the spec
invariant promises for pipeline tracklets). -/
def WFt (t : Tracklet) : Prop :=
  strictIncB t.inds = true ∧ t.data.length = t.inds.length

/-- C5: confirmed.  For every pair of well-formed tracklets sharing a frame
index, distance_to is symmetric, box_overlap_with is 0 from both
directions, and shape_dissimilarity_with is +infinity (modelled by none)
from both directions; each function returns through its degenerate branch
rather than raising. -/
theorem c5_overlap_symmetry (ops : NumOps) (t1 t2 : Tracklet)
    (hw1 : WFt t1) (hw2 : WFt t2) (hov : overlapsB t1 t2 = true) :
    distance_to ops t1 t2 = distance_to ops t2 t1
    ∧ box_overlap_with t1 t2 = 0 ∧ box_overlap_with t2 t1 = 0
    ∧ shape_dissimilarity_with ops t1 t2 = none
    ∧ shape_dissimilarity_with ops t2 t1 = none := by
  have hov2 : overlapsB t2 t1 = true := by rw [← overlapsB_comm]; exact hov
  refine ⟨?_, ?_, ?_, ?_, ?_⟩
  · rw [distance_to, distance_to, if_pos hov, if_pos hov2]
    rw [zipWith_symm_fn (pdist ops) (pdist_symm ops)]
  · rw [box_overlap_with, if_pos hov]
  · rw [box_overlap_with, if_pos hov2]
  · rw [shape_dissimilarity_with, if_pos hov]
  · rw [shape_dissimilarity_with, if_pos hov2]

/-- Concrete overlapping tracklets (they share frame index 2). -/
def tO1 : Tracklet := ⟨[frA, frA, frA], [0, 1, 2]⟩

def tO2 : Tracklet := ⟨[frB, frB, frB], [2, 3, 4]⟩

/-- C5: witness at a concrete overlapping pair. -/
theorem c5_overlap_symmetry_witness :
    WFt tO1 ∧ WFt tO2 ∧ overlapsB tO1 tO2 = true
    ∧ distance_to opsId tO1 tO2 = distance_to opsId tO2 tO1
    ∧ box_overlap_with tO1 tO2 = 0
    ∧ shape_dissimilarity_with opsId tO1 tO2 = none := by
  have h := c5_overlap_symmetry opsId tO1 tO2 (by constructor <;> decide)
    (by constructor <;> decide) (by decide)
  exact ⟨⟨by decide, by decide⟩, ⟨by decide, by decide⟩, by decide, h.1, h.2.1, h.2.2.2.1⟩

/- C4: construction-time error behaviour. -/

/-- The configuration errors of TrackletStitcher.__init__ (both are Python
ValueErrors raised for invalid n_tracks or min_length). -/
def isConfigError (r : Except PyError Stitcher) : Prop :=
  r = .error .valueErrorTracks ∨ r = .error .valueErrorMinLen

theorem loadFragments_error_unpack (ml : ℕ) (sp : Bool) :
    ∀ (l : List (List (ℕ × Frame))) (e : PyError),
      loadFragments ml sp l = .error e → e = .valueErrorUnpack := by
  intro l
  induction l with
  | nil => intro e he; simp [loadFragments] at he
  | cons frag rest ih =>
    intro e he
    cases frag with
    | nil =>
      simp [loadFragments] at he
      exact he.symm
    | cons p ps =>
      simp only [loadFragments] at he
      rcases hrec : loadFragments ml sp rest with e2 | ok
      · rw [hrec] at he
        simp at he
        exact he ▸ ih e2 hrec
      · rw [hrec] at he
        simp at he

/-- C4: confirmed.  Construction fails with a configuration error exactly
when n_tracks < 2 or min_length < 3 (n_tracks is checked first); with both
valid it fails with the empty-input IOError exactly when the loaded
fragment collection is empty; and under valid configuration and non-empty
input it raises neither of those errors. -/
theorem c4_construction_errors (frags : List (List (ℕ × Frame))) (nt ml : ℕ) (sp : Bool) :
    (isConfigError (initStitcher frags nt ml sp) ↔ (nt < 2 ∨ ml < 3))
    ∧ (initStitcher frags nt ml sp = .error .ioErrorEmpty ↔ (2 ≤ nt ∧ 3 ≤ ml ∧ frags = []))
    ∧ (2 ≤ nt → 3 ≤ ml → frags ≠ [] →
        ¬ isConfigError (initStitcher frags nt ml sp)
        ∧ initStitcher frags nt ml sp ≠ .error .ioErrorEmpty) := by
  by_cases h1 : nt < 2
  · rw [initStitcher, if_pos h1]
    refine ⟨?_, ?_, ?_⟩
    · simp [isConfigError]
      omega
    · constructor
      · intro he; simp at he
      · rintro ⟨ha, -, -⟩; exact absurd ha (by omega)
    · intro ha; exact absurd ha (by omega)
  · by_cases h2 : ml < 3
    · rw [initStitcher, if_neg h1, if_pos h2]
      refine ⟨?_, ?_, ?_⟩
      · simp [isConfigError]
        omega
      · constructor
        · intro he; simp at he
        · rintro ⟨-, hb, -⟩; exact absurd hb (by omega)
      · intro _ hb; exact absurd hb (by omega)
    · by_cases h3 : frags.isEmpty
      · rw [initStitcher, if_neg h1, if_neg h2, if_pos h3]
        refine ⟨?_, ?_, ?_⟩
        · simp [isConfigError]
          omega
        · simp [List.isEmpty_iff.mp h3]
          omega
        · intro _ _ hc
          exact absurd (List.isEmpty_iff.mp h3) hc
      · rw [initStitcher, if_neg h1, if_neg h2, if_neg h3]
        rcases hl : loadFragments ml sp frags with e | ok
        · have he := loadFragments_error_unpack ml sp frags e hl
          subst he
          simp only [hl]
          refine ⟨?_, ?_, fun _ _ _ => ⟨?_, ?_⟩⟩
          · simp [isConfigError]
            omega
          · constructor
            · intro he2; simp at he2
            · rintro ⟨-, -, hc⟩; exact absurd (List.isEmpty_iff.mpr hc) h3
          · simp [isConfigError]
          · simp
        · simp only [hl]
          refine ⟨?_, ?_, fun _ _ _ => ⟨?_, ?_⟩⟩
          · simp [isConfigError]
            omega
          · constructor
            · intro he2; simp at he2
            · rintro ⟨-, -, hc⟩; exact absurd (List.isEmpty_iff.mpr hc) h3
          · simp [isConfigError]
          · simp

/-- C4: witness at a concrete valid configuration with non-empty input. -/
theorem c4_construction_errors_witness :
    ¬ isConfigError (initStitcher [[(0, frA), (1, frA), (2, frA)]] 2 3 true)
    ∧ initStitcher [[(0, frA), (1, frA), (2, frA)]] 2 3 true ≠ .error .ioErrorEmpty := by
  exact (c4_construction_errors [[(0, frA), (1, frA), (2, frA)]] 2 3 true).2.2
    (by decide) (by decide) (by decide)

/- C3: the default maximum gap and the candidate-edge guarantee. -/

instance : Std.Antisymm (fun x1 x2 : ℤ => x1 ≤ x2) :=
  ⟨fun {_ _} h1 h2 => le_antisymm h1 h2⟩

theorem minZ?_eq_some_iff {a : ℤ} {xs : List ℤ} :
    xs.min? = some a ↔ a ∈ xs ∧ ∀ b ∈ xs, a ≤ b :=
  List.min?_eq_some_iff (fun a => le_refl a) (fun a b => min_choice a b)
    (fun _ _ _ => le_min_iff)

theorem minZ?_perm (l1 l2 : List ℤ) (h : l1.Perm l2) : l1.min? = l2.min? := by
  rcases h1 : l1.min? with - | a
  · rw [List.min?_eq_none_iff] at h1
    subst h1
    rw [List.min?_eq_none_iff.mpr h.symm.eq_nil]
  · have h2 := minZ?_eq_some_iff.mp h1
    exact (minZ?_eq_some_iff.mpr
      ⟨h.mem_iff.mp h2.1, fun b hb => h2.2 b (h.mem_iff.mpr hb)⟩).symm

theorem sorted_find?_pos_eq_min? (s : List ℤ) (hs : s.Sorted (· ≤ ·)) :
    s.find? (fun v => decide (0 < v)) = (s.filter (fun v => decide (0 < v))).min? := by
  induction s with
  | nil => rfl
  | cons x xs ih =>
    rw [List.sorted_cons] at hs
    by_cases hx : 0 < x
    · rw [List.find?_cons_of_pos _ (by simpa using hx),
        List.filter_cons_of_pos (by simpa using hx)]
      symm
      apply minZ?_eq_some_iff.mpr
      refine ⟨List.mem_cons_self _ _, ?_⟩
      intro b hb
      rcases List.mem_cons.mp hb with hb2 | hb2
      · exact le_of_eq hb2.symm
      · exact hs.1 b (List.mem_of_mem_filter hb2)
    · rw [List.find?_cons_of_neg _ (by simpa using hx),
        List.filter_cons_of_neg (by simpa using hx)]
      exact ih hs.2

theorem nearestPosGap_spec (b : Tracklet) (os : List Tracklet) :
    nearestPosGap b os
      = ((os.map (time_gap_to b)).filter (fun v => decide (0 < v))).min? := by
  unfold nearestPosGap
  have hperm := sSortBy_perm (fun a b : ℤ => decide (a < b)) (os.map (time_gap_to b))
  have hsorted : (sSortBy (fun a b : ℤ => decide (a < b)) (os.map (time_gap_to b))).Sorted
      (· ≤ ·) := by
    have := sSortBy_sorted (k := fun v : ℤ => v) (os.map (time_gap_to b))
    simpa using this
  rw [sorted_find?_pos_eq_min? _ hsorted]
  exact minZ?_perm _ _ (hperm.filter _)

theorem gapStep_init_le (ts : List Tracklet) (acc : ℤ) (i : ℕ) : acc ≤ gapStep ts acc i := by
  unfold gapStep
  cases hn : nearestPosGap (ts.getD i default) (ts.drop (i + 1)) with
  | none => simp
  | some v =>
    simp only
    split <;> omega

theorem gapStep_ge (ts : List Tracklet) (acc : ℤ) (i : ℕ) (v : ℤ)
    (hn : nearestPosGap (ts.getD i default) (ts.drop (i + 1)) = some v) :
    v ≤ gapStep ts acc i := by
  unfold gapStep
  cases hn2 : nearestPosGap (ts.getD i default) (ts.drop (i + 1)) with
  | none => rw [hn2] at hn; exact absurd hn (by simp)
  | some v2 =>
    rw [hn2] at hn
    injection hn with hv
    subst hv
    dsimp only
    split <;> omega

theorem foldl_gapStep_le (ts : List Tracklet) (L : List ℕ) :
    ∀ acc : ℤ, acc ≤ L.foldl (gapStep ts) acc := by
  induction L with
  | nil => intro acc; exact le_refl acc
  | cons i L ih => intro acc; exact le_trans (gapStep_init_le ts acc i) (ih _)

theorem foldl_gapStep_mem (ts : List Tracklet) (L : List ℕ) :
    ∀ (acc : ℤ) (i : ℕ) (v : ℤ), i ∈ L →
      nearestPosGap (ts.getD i default) (ts.drop (i + 1)) = some v →
      v ≤ L.foldl (gapStep ts) acc := by
  induction L with
  | nil => intro acc i v hi _; simp at hi
  | cons j L ih =>
    intro acc i v hi hn
    rcases List.mem_cons.mp hi with h | h
    · subst h
      exact le_trans (gapStep_ge ts acc i v hn) (foldl_gapStep_le ts L _)
    · exact ih _ i v h hn

theorem le_compute_max_gap (ts : List Tracklet) (i : ℕ) (v : ℤ) (hi : i < ts.length)
    (hn : nearestPosGap (ts.getD i default) (ts.drop (i + 1)) = some v) :
    v ≤ compute_max_gap ts :=
  foldl_gapStep_mem ts (List.range ts.length) 0 i v (List.mem_range.mpr hi) hn

theorem compute_max_gap_nonneg (ts : List Tracklet) : 0 ≤ compute_max_gap ts :=
  foldl_gapStep_le ts (List.range ts.length) 0

theorem compute_le_default (ts : List Tracklet) :
    compute_max_gap ts ≤ maxGapUsed none ts := by
  have hG := compute_max_gap_nonneg ts
  have hGq : (0 : ℚ) ≤ (compute_max_gap ts : ℚ) := by exact_mod_cast hG
  show compute_max_gap ts ≤ pyTrunc ((3 / 2 : ℚ) * (compute_max_gap ts : ℚ))
  rw [pyTrunc, if_pos (by linarith)]
  exact Int.le_floor.mpr (by linarith)

theorem edgeFor_eq (ops : NumOps) (ts : List Tracklet) (mg : ℤ) (i j : ℕ) :
    edgeFor ops ts mg (i, j)
      = if 0 < time_gap_to (ts.getD i default) (ts.getD j default)
          ∧ time_gap_to (ts.getD i default) (ts.getD j default) ≤ mg then
          (if (ts.getD i default).endF < (ts.getD j default).startF
           then some (i, j, (calculate_weight ops (ts.getD i default)
              (ts.getD j default)).map (fun q => pyTrunc (100 * q)))
           else some (j, i, (calculate_weight ops (ts.getD i default)
              (ts.getD j default)).map (fun q => pyTrunc (100 * q))))
        else none := rfl

theorem mem_pairsIdx (n i j : ℕ) : (i, j) ∈ pairsIdx n ↔ i < j ∧ j < n := by
  simp only [pairsIdx, List.mem_flatMap, List.mem_map, List.mem_filter, List.mem_range]
  constructor
  · rintro ⟨a, ha, b, ⟨hb, hab⟩, heq⟩
    injection heq with h1 h2
    subst h1; subst h2
    exact ⟨by simpa using hab, hb⟩
  · rintro ⟨hij, hj⟩
    exact ⟨i, lt_trans hij hj, j, ⟨hj, by simpa using hij⟩, rfl⟩

/-- C3: corrected (amended form).  Without an explicit max_gap, build_graph
uses int(1.5 * G) (truncation, not exactly 1.5 x) where G is the LARGEST,
over tracklets, of each tracklet's smallest positive time gap to tracklets
later in the stitcher list (not the smallest such gap); this default
guarantees that every tracklet with a positive time gap to some later-listed
tracklet is incident to at least one transition edge (not necessarily an
outgoing one: the temporally last tracklet never has an outgoing edge). -/
theorem c3_default_gap_guarantee (ops : NumOps) (ts : List Tracklet) :
    (maxGapUsed none ts = pyTrunc ((3 / 2 : ℚ) * (compute_max_gap ts : ℚ)))
    ∧ (∀ (b : Tracklet) (os : List Tracklet),
        nearestPosGap b os
          = ((os.map (time_gap_to b)).filter (fun v => decide (0 < v))).min?)
    ∧ (∀ i, i < ts.length →
        ∀ g, nearestPosGap (ts.getD i default) (ts.drop (i + 1)) = some g →
          ∃ a b w, ((a, b, w) ∈ transitionEdges ops ts (maxGapUsed none ts))
            ∧ (a = i ∨ b = i)) := by
  refine ⟨rfl, fun b os => nearestPosGap_spec b os, ?_⟩
  intro i hi g hn
  have hgpos : 0 < g := by
    have := List.find?_some (p := fun v : ℤ => decide (0 < v)) hn
    simpa using this
  have hgle : g ≤ maxGapUsed none ts :=
    le_trans (le_compute_max_gap ts i g hi hn) (compute_le_default ts)
  have hmem : g ∈ (ts.drop (i + 1)).map (time_gap_to (ts.getD i default)) := by
    have h1 := List.mem_of_find?_eq_some hn
    exact (sSortBy_perm _ _).mem_iff.mp h1
  rcases List.mem_map.mp hmem with ⟨u, hu, hgu⟩
  rcases List.getElem_of_mem hu with ⟨k, hk, hku⟩
  have hj : i + 1 + k < ts.length := by
    have := hk
    rw [List.length_drop] at this
    omega
  have hju : ts.getD (i + 1 + k) default = u := by
    rw [List.getD_eq_getElem ts default hj, ← List.getElem_drop ts]
    · exact hku
  have hg2 : time_gap_to (ts.getD i default) (ts.getD (i + 1 + k) default) = g := by
    rw [hju]; exact hgu
  set j := i + 1 + k with hjdef
  have hij : i < j := by omega
  by_cases hdir : (ts.getD i default).endF < (ts.getD j default).startF
  · refine ⟨i, j, (calculate_weight ops (ts.getD i default) (ts.getD j default)).map
      (fun q => pyTrunc (100 * q)), ?_, Or.inl rfl⟩
    apply List.mem_filterMap.mpr
    refine ⟨(i, j), (mem_pairsIdx ts.length i j).mpr ⟨hij, hj⟩, ?_⟩
    rw [edgeFor_eq, hg2, if_pos ⟨hgpos, hgle⟩, if_pos hdir]
  · refine ⟨j, i, (calculate_weight ops (ts.getD i default) (ts.getD j default)).map
      (fun q => pyTrunc (100 * q)), ?_, Or.inr rfl⟩
    apply List.mem_filterMap.mpr
    refine ⟨(i, j), (mem_pairsIdx ts.length i j).mpr ⟨hij, hj⟩, ?_⟩
    rw [edgeFor_eq, hg2, if_pos ⟨hgpos, hgle⟩, if_neg hdir]

/-- Concrete tracklets for the gap computation: spans [0,2], [4,6], [11,13]
in list order; the pairwise gaps are 2, 9 and 5. -/
def tG2 : Tracklet := ⟨[frB, frB, frB], [4, 5, 6]⟩

def tG3 : Tracklet := ⟨[frA, frA, frA], [11, 12, 13]⟩

def tsG : List Tracklet := [tO1, tG2, tG3]

/-- C3: counterexample.  On tsG the per-tracklet nearest positive gaps are
2 (for the first tracklet, over later-listed ones) and 5; the default gap
is int(1.5 * 5) = 7, which is neither 1.5 x the largest nearest gap (7.5)
nor 1.5 x the smallest nearest gap (3), so the claimed equality fails; and
the temporally last tracklet (index 2) has no outgoing transition edge at
all, so the claimed every-tracklet outgoing-edge guarantee fails too. -/
theorem maxGapUsed_tsG_eq : maxGapUsed none tsG = 7 := by
  have h5 : compute_max_gap tsG = 5 := by decide
  show pyTrunc ((3 / 2 : ℚ) * (compute_max_gap tsG : ℚ)) = 7
  rw [h5, pyTrunc, if_pos (by norm_num)]
  norm_num

theorem c3_counterexample :
    compute_max_gap tsG = 5
    ∧ maxGapUsed none tsG = 7
    ∧ ((List.range tsG.length).filterMap (fun i =>
        nearestPosGap (tsG.getD i default) (tsG.drop (i + 1)))).min? = some 2
    ∧ 2 * maxGapUsed none tsG ≠ 3 * compute_max_gap tsG
    ∧ 2 * maxGapUsed none tsG ≠ 3 * 2
    ∧ (2 < tsG.length ∧ ∀ e ∈ transitionEdges opsId tsG (maxGapUsed none tsG), e.1 ≠ 2) := by
  have h5 : compute_max_gap tsG = 5 := by decide
  have h7 := maxGapUsed_tsG_eq
  refine ⟨h5, h7, by decide, ?_, ?_, by decide, ?_⟩
  · rw [h5, h7]; decide
  · rw [h7]; decide
  · rw [h7]
    decide

/-- C3: witness for the amended guarantee at tsG, tracklet 0. -/
theorem c3_default_gap_guarantee_witness :
    (0 < tsG.length
      ∧ nearestPosGap (tsG.getD 0 default) (tsG.drop 1) = some 2)
    ∧ ∃ a b w, ((a, b, w) ∈ transitionEdges opsId tsG (maxGapUsed none tsG))
        ∧ (a = 0 ∨ b = 0) := by
  exact ⟨⟨by decide, by decide⟩,
    (c3_default_gap_guarantee opsId tsG).2.2 0 (by decide) 2 (by decide)⟩

/- C8: the stored transition-edge weights. -/

/-- The finite (non-overlapping) branch of shape_dissimilarity_with: the
undirected Hausdorff distance of the two adjoining boundary frames. -/
def shapeFin (ops : NumOps) (t1 t2 : Tracklet) : ℚ :=
  if t1.endF < t2.startF then
    undirected_hausdorff ops (t1.xy.getLastD []) (t2.xy.headD [])
  else undirected_hausdorff ops (t1.xy.headD []) (t2.xy.getLastD [])

theorem time_gap_pos_not_overlap (t1 t2 : Tracklet) (hg : 0 < time_gap_to t1 t2) :
    overlapsB t1 t2 = false := by
  cases h : overlapsB t1 t2 with
  | false => rfl
  | true =>
    rw [time_gap_to, if_pos h] at hg
    exact absurd hg (by omega)

theorem shape_eq_some_of_not_overlap (ops : NumOps) (t1 t2 : Tracklet)
    (hov : overlapsB t1 t2 = false) :
    shape_dissimilarity_with ops t1 t2 = some (shapeFin ops t1 t2) := by
  rw [shape_dissimilarity_with, if_neg (by simp [hov]), shapeFin]
  by_cases hdir : t1.endF < t2.startF
  · rw [if_pos hdir, if_pos hdir]
  · rw [if_neg hdir, if_neg hdir]

/-- C8: confirmed.  For every list pair within the allowed gap, the weight
is finite (the infinite shape branch is unreachable because a positive time
gap excludes temporal overlap), equals
-log(box_overlap + eps) + distance + shape + dynamic dissimilarity, and the
stored edge carries int(100 * weight). -/
theorem c8_edge_weight (ops : NumOps) (ts : List Tracklet) (mg : ℤ) (i j : ℕ)
    (hij : i < j) (hj : j < ts.length)
    (hg : 0 < time_gap_to (ts.getD i default) (ts.getD j default))
    (hle : time_gap_to (ts.getD i default) (ts.getD j default) ≤ mg) :
    ∃ q : ℚ,
      calculate_weight ops (ts.getD i default) (ts.getD j default) = some q
      ∧ q = -(ops.log (box_overlap_with (ts.getD i default) (ts.getD j default) + machEps))
            + distance_to ops (ts.getD i default) (ts.getD j default)
            + shapeFin ops (ts.getD i default) (ts.getD j default)
            + dynamic_dissimilarity_with ops (ts.getD i default) (ts.getD j default)
      ∧ ∃ a b, ((a = i ∧ b = j) ∨ (a = j ∧ b = i))
          ∧ (a, b, some (pyTrunc (100 * q))) ∈ transitionEdges ops ts mg := by
  set t1 := ts.getD i default with ht1
  set t2 := ts.getD j default with ht2
  have hov : overlapsB t1 t2 = false := time_gap_pos_not_overlap t1 t2 hg
  have hshape := shape_eq_some_of_not_overlap ops t1 t2 hov
  refine ⟨-(ops.log (box_overlap_with t1 t2 + machEps)) + distance_to ops t1 t2
    + shapeFin ops t1 t2 + dynamic_dissimilarity_with ops t1 t2, ?_, rfl, ?_⟩
  · rw [calculate_weight, hshape]
    rfl
  · have hw : (calculate_weight ops t1 t2).map (fun q => pyTrunc (100 * q))
        = some (pyTrunc (100 * (-(ops.log (box_overlap_with t1 t2 + machEps))
            + distance_to ops t1 t2 + shapeFin ops t1 t2
            + dynamic_dissimilarity_with ops t1 t2))) := by
      rw [calculate_weight, hshape]
      rfl
    by_cases hdir : t1.endF < t2.startF
    · refine ⟨i, j, Or.inl ⟨rfl, rfl⟩, ?_⟩
      apply List.mem_filterMap.mpr
      refine ⟨(i, j), (mem_pairsIdx ts.length i j).mpr ⟨hij, hj⟩, ?_⟩
      rw [edgeFor_eq, ← ht1, ← ht2, if_pos ⟨hg, hle⟩, if_pos hdir, hw]
    · refine ⟨j, i, Or.inr ⟨rfl, rfl⟩, ?_⟩
      apply List.mem_filterMap.mpr
      refine ⟨(i, j), (mem_pairsIdx ts.length i j).mpr ⟨hij, hj⟩, ?_⟩
      rw [edgeFor_eq, ← ht1, ← ht2, if_pos ⟨hg, hle⟩, if_neg hdir, hw]

/-- C8: witness at a concrete in-gap pair. -/
theorem c8_edge_weight_witness :
    (0 < time_gap_to ([tO1, tG2].getD 0 default) ([tO1, tG2].getD 1 default)
      ∧ time_gap_to ([tO1, tG2].getD 0 default) ([tO1, tG2].getD 1 default) ≤ 7)
    ∧ ∃ q : ℚ,
        calculate_weight opsId ([tO1, tG2].getD 0 default) ([tO1, tG2].getD 1 default) = some q
        ∧ q = -(opsId.log (box_overlap_with ([tO1, tG2].getD 0 default)
                ([tO1, tG2].getD 1 default) + machEps))
              + distance_to opsId ([tO1, tG2].getD 0 default) ([tO1, tG2].getD 1 default)
              + shapeFin opsId ([tO1, tG2].getD 0 default) ([tO1, tG2].getD 1 default)
              + dynamic_dissimilarity_with opsId ([tO1, tG2].getD 0 default)
                  ([tO1, tG2].getD 1 default)
        ∧ ∃ a b, ((a = 0 ∧ b = 1) ∨ (a = 1 ∧ b = 0))
            ∧ (a, b, some (pyTrunc (100 * q))) ∈ transitionEdges opsId [tO1, tG2] 7 := by
  exact ⟨⟨by decide, by decide⟩,
    c8_edge_weight opsId [tO1, tG2] 7 0 1 (by decide) (by decide) (by decide) (by decide)⟩

/- C10: interleaved pairs: neither preceding, following, nor overlapping. -/

/-- A concrete interleaved pair: frame sets {0,2,4} and {1,3,5} are
disjoint but the spans [0,4] and [1,5] intersect. -/
def tU1 : Tracklet := ⟨[frA, frA, frA], [0, 2, 4]⟩

def tU2 : Tracklet := ⟨[frB, frB, frB], [1, 3, 5]⟩

theorem motion_affinity_nonpos (ops : NumOps) (t1 t2 : Tracklet)
    (h : time_gap_to t1 t2 ≤ 0) : motion_affinity_with ops t1 t2 = 0 := by
  simp only [motion_affinity_with]
  rw [if_neg (by omega)]

theorem no_edge_of_nonpos_gaps (ops : NumOps) (t1 t2 : Tracklet)
    (h12 : time_gap_to t1 t2 ≤ 0) (h21 : time_gap_to t2 t1 ≤ 0)
    (ts : List Tracklet) (mg : ℤ) (a b : ℕ)
    (ha : ts.getD a default = t1) (hb : ts.getD b default = t2) (w : Option ℤ) :
    (a, b, w) ∉ transitionEdges ops ts mg := by
  intro hmem
  obtain ⟨p, hp, hf⟩ := List.mem_filterMap.mp hmem
  obtain ⟨p1, p2⟩ := p
  rw [edgeFor_eq] at hf
  by_cases hguard : 0 < time_gap_to (ts.getD p1 default) (ts.getD p2 default)
      ∧ time_gap_to (ts.getD p1 default) (ts.getD p2 default) ≤ mg
  · rw [if_pos hguard] at hf
    by_cases hdir : (ts.getD p1 default).endF < (ts.getD p2 default).startF
    · rw [if_pos hdir] at hf
      injection hf with hf2
      injection hf2 with hfa hf3
      injection hf3 with hfb hfw
      subst hfa; subst hfb
      rw [ha, hb] at hguard
      exact absurd hguard.1 (by omega)
    · rw [if_neg hdir] at hf
      injection hf with hf2
      injection hf2 with hfa hf3
      injection hf3 with hfb hfw
      subst hfa; subst hfb
      rw [ha, hb] at hguard
      exact absurd hguard.1 (by omega)
  · rw [if_neg hguard] at hf
    exact Option.noConfusion hf

/-- C10: confirmed.  Interleaved pairs exist (tU1, tU2), and for every such
pair (no shared frame index, neither strictly precedes the other, i.e. the
spans intersect) time_gap_to is non-positive both ways,
motion_affinity_with is 0 both ways, distance_to falls through to the
endpoint branch comparing the first centroid of one with the last centroid
of the other, and build_graph creates no transition edge between the two in
either direction. -/
theorem c10_interleaved_pairs :
    (overlapsB tU1 tU2 = false ∧ ¬ tU1.endF < tU2.startF ∧ ¬ tU2.endF < tU1.startF)
    ∧ (∀ (ops : NumOps) (t1 t2 : Tracklet),
        overlapsB t1 t2 = false → ¬ t1.endF < t2.startF → ¬ t2.endF < t1.startF →
          time_gap_to t1 t2 ≤ 0 ∧ time_gap_to t2 t1 ≤ 0
          ∧ motion_affinity_with ops t1 t2 = 0 ∧ motion_affinity_with ops t2 t1 = 0
          ∧ distance_to ops t1 t2
              = pdist ops ((centroidOf ops t1).headD (0, 0))
                  ((centroidOf ops t2).getLastD (0, 0))
          ∧ distance_to ops t2 t1
              = pdist ops ((centroidOf ops t2).headD (0, 0))
                  ((centroidOf ops t1).getLastD (0, 0))
          ∧ (∀ (ts : List Tracklet) (mg : ℤ) (a b : ℕ) (w : Option ℤ),
              ts.getD a default = t1 → ts.getD b default = t2 →
                (a, b, w) ∉ transitionEdges ops ts mg
                ∧ (b, a, w) ∉ transitionEdges ops ts mg)) := by
  refine ⟨⟨by decide, by decide, by decide⟩, ?_⟩
  intro ops t1 t2 hov hnd1 hnd2
  have hov2 : overlapsB t2 t1 = false := by rw [← overlapsB_comm]; exact hov
  have h12 : time_gap_to t1 t2 ≤ 0 := by
    rw [time_gap_to, if_neg (by simp [hov]), if_neg hnd1]
    omega
  have h21 : time_gap_to t2 t1 ≤ 0 := by
    rw [time_gap_to, if_neg (by simp [hov2]), if_neg hnd2]
    omega
  refine ⟨h12, h21, motion_affinity_nonpos ops t1 t2 h12,
    motion_affinity_nonpos ops t2 t1 h21, ?_, ?_, ?_⟩
  · rw [distance_to, if_neg (by simp [hov]), if_neg hnd1]
  · rw [distance_to, if_neg (by simp [hov2]), if_neg hnd2]
  · intro ts mg a b w ha hb
    exact ⟨no_edge_of_nonpos_gaps ops t1 t2 h12 h21 ts mg a b ha hb w,
      no_edge_of_nonpos_gaps ops t2 t1 h21 h12 ts mg b a hb ha w⟩

/-- C10: witness at the concrete interleaved pair. -/
theorem c10_interleaved_pairs_witness :
    (overlapsB tU1 tU2 = false ∧ ¬ tU1.endF < tU2.startF ∧ ¬ tU2.endF < tU1.startF)
    ∧ time_gap_to tU1 tU2 ≤ 0 ∧ motion_affinity_with opsId tU1 tU2 = 0
    ∧ ((0, 1, (none : Option ℤ)) ∉ transitionEdges opsId [tU1, tU2] 100
        ∧ (1, 0, (none : Option ℤ)) ∉ transitionEdges opsId [tU1, tU2] 100) := by
  have h := (c10_interleaved_pairs).2 opsId tU1 tU2 (by decide) (by decide) (by decide)
  exact ⟨⟨by decide, by decide, by decide⟩, h.1, h.2.2.1,
    h.2.2.2.2.2.2 [tU1, tU2] 100 0 1 none (by decide) (by decide)⟩

/- C7: greedy residual incorporation in _finalize_tracks. -/

theorem argminGo_spec (xs : List ℚ) :
    ∀ (i : ℕ) (acc : ℕ × ℚ),
      (argminGo xs i acc).2 ≤ acc.2
      ∧ (∀ x ∈ xs, (argminGo xs i acc).2 ≤ x)
      ∧ (argminGo xs i acc = acc
          ∨ ∃ k, k < xs.length ∧ (argminGo xs i acc).1 = i + k
              ∧ xs.getD k 0 = (argminGo xs i acc).2) := by
  induction xs with
  | nil =>
    intro i acc
    exact ⟨le_refl _, by simp, Or.inl rfl⟩
  | cons x xs ih =>
    intro i acc
    by_cases hx : x < acc.2
    · have h := ih (i + 1) (i, x)
      have heq : argminGo (x :: xs) i acc = argminGo xs (i + 1) (i, x) := by
        simp only [argminGo]
        rw [if_pos hx]
      rw [heq]
      refine ⟨le_trans h.1 (le_of_lt hx), ?_, ?_⟩
      · intro y hy
        rcases List.mem_cons.mp hy with hy2 | hy2
        · subst hy2; exact h.1
        · exact h.2.1 y hy2
      · rcases h.2.2 with hc | ⟨k, hk, hik, hval⟩
        · refine Or.inr ⟨0, by simp, ?_, ?_⟩
          · simp [hc]
          · simp [hc]
        · refine Or.inr ⟨k + 1, by simp; omega, by omega, ?_⟩
          rw [List.getD_cons_succ]
          exact hval
    · have h := ih (i + 1) acc
      have heq : argminGo (x :: xs) i acc = argminGo xs (i + 1) acc := by
        simp only [argminGo]
        rw [if_neg hx]
      rw [heq]
      refine ⟨h.1, ?_, ?_⟩
      · intro y hy
        rcases List.mem_cons.mp hy with hy2 | hy2
        · subst hy2; exact le_trans h.1 (le_of_not_lt hx)
        · exact h.2.1 y hy2
      · rcases h.2.2 with hc | ⟨k, hk, hik, hval⟩
        · exact Or.inl hc
        · refine Or.inr ⟨k + 1, by simp; omega, by omega, ?_⟩
          rw [List.getD_cons_succ]
          exact hval

theorem argminQ_spec (x : ℚ) (xs : List ℚ) :
    argminQ (x :: xs) < (x :: xs).length
    ∧ ∀ y ∈ x :: xs, (x :: xs).getD (argminQ (x :: xs)) 0 ≤ y := by
  have h := argminGo_spec xs 1 (0, x)
  have hq : argminQ (x :: xs) = (argminGo xs 1 (0, x)).1 := rfl
  rcases h.2.2 with hc | ⟨k, hk, hik, hval⟩
  · constructor
    · rw [hq, hc]
      simp
    · intro y hy
      have hg : (x :: xs).getD (argminQ (x :: xs)) 0 = x := by simp [hq, hc]
      rw [hg]
      rcases List.mem_cons.mp hy with h2 | h2
      · subst h2; exact le_refl _
      · have h3 := h.2.1 y h2
        rw [hc] at h3
        exact h3
  · constructor
    · rw [hq, hik]
      simp
      omega
    · intro y hy
      have hg : (x :: xs).getD (argminQ (x :: xs)) 0 = (argminGo xs 1 (0, x)).2 := by
        rw [hq, hik, Nat.add_comm 1 k, List.getD_cons_succ]
        exact hval
      rw [hg]
      rcases List.mem_cons.mp hy with h2 | h2
      · subst h2; exact h.1
      · exact h.2.1 y h2

theorem finalizeLoop_eq_foldl (ops : NumOps) (res : List Tracklet) :
    ∀ tracks, finalizeLoop ops tracks res = res.reverse.foldl (attachStep ops) tracks := by
  induction res using List.reverseRecOn with
  | nil =>
    intro tracks
    rw [finalizeLoop]
    simp
  | append_singleton l r ih =>
    intro tracks
    rw [finalizeLoop]
    rw [dif_neg (by simp)]
    rw [List.getLastD_concat, List.dropLast_concat]
    rw [ih]
    simp

/-- C7: confirmed.  _finalize_tracks processes the residuals sorted stably
by ascending length and consumed from the end (the fold over the reversed
sorted list, effectively largest first); a residual with index set disjoint
from a track is treated as non-overlapping even when its span nests inside
that track's span; and one step attaches the residual to the unique
eligible track, to the eligible track of minimal distance_to when there are
several (first minimum wins as in np.argmin), and drops it when there is
none. -/
theorem c7_finalize_residuals (ops : NumOps) (tracks residuals : List Tracklet)
    (t r : Tracklet) :
    (finalize_tracks ops tracks residuals
      = ((sSortBy (fun a b => decide (a.inds.length < b.inds.length))
          residuals).reverse).foldl (attachStep ops) tracks)
    ∧ (sSortBy (fun a b => decide (a.inds.length < b.inds.length)) residuals).Sorted
        (fun a b => a.inds.length ≤ b.inds.length)
    ∧ (sSortBy (fun a b => decide (a.inds.length < b.inds.length))
        residuals).Perm residuals
    ∧ (∀ c : ℕ, (sSortBy (fun a b => decide (a.inds.length < b.inds.length))
          residuals).filter (fun x => decide (x.inds.length = c))
        = residuals.filter (fun x => decide (x.inds.length = c)))
    ∧ (t.startF ≤ r.startF → r.endF ≤ t.endF → (∀ i ∈ t.inds, i ∉ r.inds) →
        overlapsB t r = false
        ∧ (∀ i, i < tracks.length → tracks.getD i default = t →
            i ∈ eligibleIdx tracks r))
    ∧ (eligibleIdx tracks r = [] → attachStep ops tracks r = tracks)
    ∧ (∀ i, eligibleIdx tracks r = [i] →
        attachStep ops tracks r = tracks.set i (tmerge (tracks.getD i default) r))
    ∧ (∀ i j rest, eligibleIdx tracks r = i :: j :: rest →
        ∃ k, k ∈ i :: j :: rest
          ∧ attachStep ops tracks r = tracks.set k (tmerge (tracks.getD k default) r)
          ∧ ∀ m ∈ i :: j :: rest,
              distance_to ops r (tracks.getD k default)
                ≤ distance_to ops r (tracks.getD m default)) := by
  refine ⟨?_, ?_, ?_, ?_, ?_, ?_, ?_, ?_⟩
  · rw [finalize_tracks]
    exact finalizeLoop_eq_foldl ops _ tracks
  · exact sSortBy_sorted (k := fun u : Tracklet => u.inds.length) residuals
  · exact sSortBy_perm _ residuals
  · intro c
    exact sSortBy_filter_key (k := fun u : Tracklet => u.inds.length) residuals c
  · intro _ _ hdisj
    have hov : overlapsB t r = false := by
      rw [overlapsB, List.any_eq_false]
      intro i hi
      have hni := hdisj i hi
      simpa using hni
    refine ⟨hov, fun i hi hti => ?_⟩
    rw [eligibleIdx]
    refine List.mem_filter.mpr ⟨List.mem_range.mpr hi, ?_⟩
    rw [hti, hov]
    rfl
  · intro heq
    simp only [attachStep, heq]
  · intro i heq
    simp only [attachStep, heq]
  · intro i j rest heq
    have hlen : ((i :: j :: rest).map
        (fun k => distance_to ops r (tracks.getD k default))) ≠ [] := by simp
    obtain ⟨x, xs, hxl⟩ : ∃ x xs, (i :: j :: rest).map
        (fun k => distance_to ops r (tracks.getD k default)) = x :: xs :=
      ⟨_, _, rfl⟩
    have hspec := argminQ_spec x xs
    rw [← hxl] at hspec
    set dists := (i :: j :: rest).map
      (fun k => distance_to ops r (tracks.getD k default)) with hd
    set a := argminQ dists with ha
    have halen : a < (i :: j :: rest).length := by
      have := hspec.1
      rwa [hd, List.length_map] at this
    refine ⟨(i :: j :: rest).getD a 0, ?_, ?_, ?_⟩
    · rw [List.getD_eq_getElem _ _ halen]
      exact List.getElem_mem _
    · simp only [attachStep, heq]
    · intro m hm
      have h1 : dists.getD a 0
          = distance_to ops r (tracks.getD ((i :: j :: rest).getD a 0) default) := by
        rw [hd, List.getD_eq_getElem _ _ (by rw [List.length_map]; exact halen),
          List.getElem_map, ← List.getD_eq_getElem _ _ halen]
      have h2 : distance_to ops r (tracks.getD m default) ∈ dists := by
        rw [hd]
        exact List.mem_map.mpr ⟨m, hm, rfl⟩
      have h3 := hspec.2 _ h2
      rw [h1] at h3
      exact h3

/-- Concrete nesting instance: the residual spans [3,5] inside the track
span [0,10] with disjoint index sets. -/
def tN : Tracklet := ⟨[frA, frB], [0, 10]⟩

def rN : Tracklet := ⟨[frB, frB, frB], [3, 4, 5]⟩

/-- C7: witness.  The nested-but-disjoint residual is eligible, and with a
single eligible track the step attaches it there. -/
theorem c7_finalize_residuals_witness :
    (tN.startF ≤ rN.startF ∧ rN.endF ≤ tN.endF)
    ∧ overlapsB tN rN = false
    ∧ eligibleIdx [tN] rN = [0]
    ∧ attachStep opsId [tN] rN = [tN].set 0 (tmerge ([tN].getD 0 default) rN) := by
  refine ⟨⟨by decide, by decide⟩, ?_, by decide, ?_⟩
  · exact ((c7_finalize_residuals opsId [tN] [] tN rN).2.2.2.2.1 (by decide) (by decide)
      (by decide)).1
  · exact (c7_finalize_residuals opsId [tN] [] tN rN).2.2.2.2.2.2.1 0 (by decide)

/- C2: the fatal fallback condition and the finally block. -/

/-- Solver outcome of an infeasible primal flow whose pruned disjoint-path
fallback found only one path, with no nodes left in the graph. -/
def ocFail : SolveOutcome := .infeasible [[tO1]] []

/-- C2: the code as written.  With n_tracks = 3 and a fallback that found a
single path (so more than one target path is missing), the stitch body
raises NotImplementedError without guessing an assignment, but the finally
block then calls _finalize_tracks while self.paths is still None, and the
TypeError raised by iterating None replaces the in-flight
NotImplementedError: the error class the caller observes is TypeError. -/
theorem c2_masked_not_implemented :
    stitchInner opsId 3 [] ocFail = .error .notImplementedErr
    ∧ stitchModel opsId 3 [] ocFail = .error .typeErrorNoneIterable
    ∧ stitchModel opsId 3 [] ocFail ≠ .error .notImplementedErr := by
  refine ⟨rfl, rfl, ?_⟩
  intro h
  have h2 : (Except.error PyError.typeErrorNoneIterable :
      Except PyError (List Tracklet)) = .error .notImplementedErr := h
  injection h2 with h3
  exact PyError.noConfusion h3

end Stitch
